import Mathlib

/-!
# GPOP hardware trigger model: the command processor's drain loop

A shallow embedding of `GPU_CommandProcessor::process_ring_buffer`
(`src/tools/sdk/hardware_trigger_model.cpp`).

* `std::queue<Command>` is a `List Command` whose head is the front of the queue.
* `front()` and `pop()` are undefined on an empty `std::queue`; they are embedded
  as `Option`-valued functions, so a drain that ever touched an empty queue would
  evaluate to `none`.
* The two private sinks only write a line to `std::cout`; the embedding records
  each sink call, with its opcode, at the end of a list of calls.
* `uint32_t` / `uint64_t` fields are natural numbers: the program does no
  arithmetic on them, so every machine value is one of the numbers quantified over.
-/

namespace GPU_CommandProcessor

/-- The `Command` struct of the source: opcode, power flag, timestamp. -/
structure Command where
  opcode : Nat
  is_high_power : Bool
  timestamp : Nat
deriving DecidableEq, Repr

/-- One observable sink call: `Trigger op` is a call of `trigger_hardware_sideband(op)`,
`Launch op` a call of `launch_cuda_kernel(op)`. -/
inductive SinkCall where
  | Trigger (op : Nat)
  | Launch (op : Nat)
deriving DecidableEq, Repr

/-- The machine state the loop works on: the caller's queue and the sink calls made so far
(oldest first). -/
structure State where
  buffer : List Command
  calls : List SinkCall
deriving DecidableEq, Repr

/-- The test `buffer.empty()`. -/
def empty (buffer : List Command) : Bool :=
  match buffer with
  | [] => true
  | _ :: _ => false

/-- The call `buffer.front()`: the head command; no value on an empty queue. -/
def front (buffer : List Command) : Option Command :=
  match buffer with
  | [] => none
  | cmd :: _ => some cmd

/-- The call `buffer.pop()`: the queue without its head; no value on an empty queue. -/
def pop (buffer : List Command) : Option (List Command) :=
  match buffer with
  | [] => none
  | _ :: rest => some rest

/-- The sink `trigger_hardware_sideband(op)`: one more recorded `Trigger op`. -/
def trigger_hardware_sideband (op : Nat) (calls : List SinkCall) : List SinkCall :=
  calls ++ [SinkCall.Trigger op]

/-- The sink `launch_cuda_kernel(op)`: one more recorded `Launch op`. -/
def launch_cuda_kernel (op : Nat) (calls : List SinkCall) : List SinkCall :=
  calls ++ [SinkCall.Launch op]

/-- One pass through the body of the `while` loop (source lines 29-35):
`front`, `pop`, the guarded trigger, then the launch. -/
def loop_body (s : State) : Option State :=
  match front s.buffer with
  | none => none
  | some cmd =>
    match pop s.buffer with
    | none => none
    | some rest =>
      let calls :=
        if cmd.is_high_power then trigger_hardware_sideband cmd.opcode s.calls else s.calls
      some { buffer := rest, calls := launch_cuda_kernel cmd.opcode calls }

/-- The loop `while(!buffer.empty()) { ... }` run from state `s`. -/
def drain (s : State) : Option State :=
  if empty s.buffer then some s
  else
    match h : loop_body s with
    | none => none
    | some s' => drain s'
termination_by s.buffer.length
decreasing_by
  obtain ⟨buffer, calls⟩ := s
  cases buffer with
  | nil => simp [loop_body, front] at h
  | cons cmd rest =>
    simp only [loop_body, front, pop, Option.some.injEq] at h
    subst h
    simp

/-- The method `process_ring_buffer(buffer)`: the drain loop started with no sink call made yet.
The result holds the queue as the caller finds it afterwards and the calls made. -/
def process_ring_buffer (buffer : List Command) : Option State :=
  drain { buffer := buffer, calls := [] }

/-- The queue that `main` seeds: one high-power command with opcode `0xBEFF`. -/
def main_ring_buffer : List Command :=
  [{ opcode := 0xBEFF, is_high_power := true, timestamp := 1000 }]

/-! ## Reference descriptions of the expected behaviour -/

/-- The calls expected for one command: trigger then launch when it is high-power,
launch alone otherwise. -/
def expected_calls (c : Command) : List SinkCall :=
  if c.is_high_power then [SinkCall.Trigger c.opcode, SinkCall.Launch c.opcode]
  else [SinkCall.Launch c.opcode]

/-- The calls expected for a whole queue: the per-command calls, head to tail. -/
def expected_trace : List Command → List SinkCall
  | [] => []
  | c :: rest => expected_calls c ++ expected_trace rest

/-- The opcode of a `Launch` call, nothing for a `Trigger`. -/
def launch_opcode : SinkCall → Option Nat
  | SinkCall.Launch op => some op
  | SinkCall.Trigger _ => none

/-- The opcode of a `Trigger` call, nothing for a `Launch`. -/
def trigger_opcode : SinkCall → Option Nat
  | SinkCall.Trigger op => some op
  | SinkCall.Launch _ => none

/-- The opcodes of the `Launch` calls of a trace, in trace order. -/
def launches (t : List SinkCall) : List Nat := t.filterMap launch_opcode

/-- The opcodes of the `Trigger` calls of a trace, in trace order. -/
def triggers (t : List SinkCall) : List Nat := t.filterMap trigger_opcode

/-- The flags of a queue alternate: any two neighbouring commands differ in `is_high_power`
(the first flag may be either value). -/
def flags_alternate : List Command → Bool
  | [] => true
  | [_] => true
  | a :: b :: rest => (a.is_high_power != b.is_high_power) && flags_alternate (b :: rest)

/-- A queue of 100 commands with alternating flags, the first one high-power; command `i` has
opcode `i` and timestamp `i`. -/
def alternating_queue_100 : List Command :=
  (List.range 100).map
    (fun i => { opcode := i, is_high_power := i % 2 == 0, timestamp := i })

/-- The loop body run `n` times in a row, whatever the loop test says; no value as soon as one
pass has none. -/
def iterate_body : Nat → State → Option State
  | 0, s => some s
  | n + 1, s =>
    match loop_body s with
    | none => none
    | some s' => iterate_body n s'

/-- One iteration of the `while` loop as a relation: the loop test lets the body run from `s`
(the queue is not empty) and the body leaves the state `s'`. -/
def Step (s s' : State) : Prop :=
  empty s.buffer = false ∧ loop_body s = some s'

/-- The states the loop can be in when `process_ring_buffer` is called on the queue `q`: the
initial state (the whole queue, no call made) and every state one iteration after such a state. -/
inductive Reachable (q : List Command) : State → Prop
  | init : Reachable q { buffer := q, calls := [] }
  | step (s s' : State) : Reachable q s → Step s s' → Reachable q s'

/-! ## The drain loop computes the expected trace -/

theorem drain_nil (calls : List SinkCall) :
    drain { buffer := [], calls := calls } = some { buffer := [], calls := calls } := by
  rw [drain]
  simp [empty]

theorem drain_cons (cmd : Command) (rest : List Command) (calls : List SinkCall) :
    drain { buffer := cmd :: rest, calls := calls } =
      drain { buffer := rest,
              calls := launch_cuda_kernel cmd.opcode
                (if cmd.is_high_power then trigger_hardware_sideband cmd.opcode calls
                 else calls) } := by
  rw [drain]
  simp [empty, loop_body, front, pop]

theorem sinks_eq_expected (cmd : Command) (calls : List SinkCall) :
    launch_cuda_kernel cmd.opcode
        (if cmd.is_high_power then trigger_hardware_sideband cmd.opcode calls else calls) =
      calls ++ expected_calls cmd := by
  cases h : cmd.is_high_power <;>
    simp [launch_cuda_kernel, trigger_hardware_sideband, expected_calls, h]

theorem drain_eq (q : List Command) (calls : List SinkCall) :
    drain { buffer := q, calls := calls } =
      some { buffer := [], calls := calls ++ expected_trace q } := by
  induction q generalizing calls with
  | nil => simp [drain_nil, expected_trace]
  | cons cmd rest ih =>
    rw [drain_cons, sinks_eq_expected, ih]
    simp [expected_trace, List.append_assoc]

theorem process_eq (q : List Command) :
    process_ring_buffer q = some { buffer := [], calls := expected_trace q } := by
  simp [process_ring_buffer, drain_eq]

/-! ## Facts about the expected trace -/

theorem expected_trace_append (a b : List Command) :
    expected_trace (a ++ b) = expected_trace a ++ expected_trace b := by
  induction a with
  | nil => simp [expected_trace]
  | cons c rest ih => simp [expected_trace, ih, List.append_assoc]

theorem expected_trace_eq_flatMap (q : List Command) :
    expected_trace q = q.flatMap expected_calls := by
  induction q with
  | nil => simp [expected_trace]
  | cons c rest ih => simp [expected_trace, ih]

theorem launches_expected_calls (c : Command) :
    launches (expected_calls c) = [c.opcode] := by
  cases h : c.is_high_power <;> simp [launches, expected_calls, launch_opcode, h]

theorem triggers_expected_calls (c : Command) :
    triggers (expected_calls c) = if c.is_high_power then [c.opcode] else [] := by
  cases h : c.is_high_power <;> simp [triggers, expected_calls, trigger_opcode, h]

theorem launches_append (a b : List SinkCall) :
    launches (a ++ b) = launches a ++ launches b := by
  simp [launches]

theorem triggers_append (a b : List SinkCall) :
    triggers (a ++ b) = triggers a ++ triggers b := by
  simp [triggers]

theorem launches_expected_trace (q : List Command) :
    launches (expected_trace q) = q.map (fun c => c.opcode) := by
  induction q with
  | nil => simp [expected_trace, launches]
  | cons c rest ih => simp [expected_trace, launches_append, launches_expected_calls, ih]

theorem triggers_expected_trace (q : List Command) :
    triggers (expected_trace q) =
      (q.filter (fun c => c.is_high_power)).map (fun c => c.opcode) := by
  induction q with
  | nil => simp [expected_trace, triggers]
  | cons c rest ih =>
    cases h : c.is_high_power <;>
      simp [expected_trace, triggers_append, triggers_expected_calls, ih, h]

theorem mem_expected_trace_trigger (q : List Command) (op : Nat) :
    SinkCall.Trigger op ∈ expected_trace q ↔
      ∃ d ∈ q, d.is_high_power = true ∧ d.opcode = op := by
  induction q with
  | nil => simp [expected_trace]
  | cons c rest ih =>
    cases h : c.is_high_power
    · simp [expected_trace, expected_calls, ih, h]
    · simp only [expected_trace, expected_calls, h, if_true, List.cons_append, List.nil_append,
        List.mem_cons, SinkCall.Trigger.injEq, ih, exists_eq_or_imp, true_and, reduceCtorEq,
        false_or]
      constructor
      · rintro (h1 | h1)
        · exact Or.inl h1.symm
        · exact Or.inr h1
      · rintro (h1 | h1)
        · exact Or.inl h1.symm
        · exact Or.inr h1

theorem expected_trace_trigger_next (q : List Command) (j op : Nat)
    (h : (expected_trace q)[j]? = some (SinkCall.Trigger op)) :
    (expected_trace q)[j + 1]? = some (SinkCall.Launch op) := by
  induction q generalizing j with
  | nil => simp [expected_trace] at h
  | cons c rest ih =>
    cases hp : c.is_high_power
    · simp only [expected_trace, expected_calls, hp, Bool.false_eq_true, if_false,
        List.singleton_append] at h ⊢
      cases j with
      | zero => simp at h
      | succ j =>
        rw [List.getElem?_cons_succ] at h ⊢
        exact ih j h
    · simp only [expected_trace, expected_calls, hp, if_true, List.cons_append,
        List.nil_append] at h ⊢
      cases j with
      | zero =>
        simp only [List.getElem?_cons_zero, Option.some.injEq, SinkCall.Trigger.injEq] at h
        simp [h]
      | succ j =>
        cases j with
        | zero => simp at h
        | succ j =>
          rw [List.getElem?_cons_succ, List.getElem?_cons_succ] at h ⊢
          exact ih j h

/-! ## The claims -/

/-- C1: for every command queue, the sink calls made by `process_ring_buffer` are exactly the
concatenation, over the commands from head to tail, of `[Trigger opcode, Launch opcode]` for a
high-power command and `[Launch opcode]` for any other. -/
theorem C1_trace_is_per_command_concatenation (q : List Command) :
    ∃ s, process_ring_buffer q = some s ∧
      s.calls = q.flatMap (fun c =>
        if c.is_high_power then [SinkCall.Trigger c.opcode, SinkCall.Launch c.opcode]
        else [SinkCall.Launch c.opcode]) := by
  refine ⟨_, process_eq q, ?_⟩
  exact expected_trace_eq_flatMap q

/-- C2: for every queue and every position `i` holding a high-power command, the trace has a
`Trigger` carrying that command's opcode at a position strictly before the `Launch` issued for
that command, which is the `i`-th `Launch` of the trace counting from 0 (exactly `i` launches
come before it). -/
theorem C2_trigger_strictly_before_own_launch (q : List Command) (i : Nat) (hi : i < q.length)
    (hp : (q.get ⟨i, hi⟩).is_high_power = true) :
    ∃ s, process_ring_buffer q = some s ∧
      ∃ j k, j < k ∧
        s.calls[j]? = some (SinkCall.Trigger (q.get ⟨i, hi⟩).opcode) ∧
        s.calls[k]? = some (SinkCall.Launch (q.get ⟨i, hi⟩).opcode) ∧
        (launches (s.calls.take k)).length = i := by
  refine ⟨_, process_eq q, (expected_trace (q.take i)).length,
    (expected_trace (q.take i)).length + 1, Nat.lt_succ_self _, ?_⟩
  have hq : q = q.take i ++ (q.get ⟨i, hi⟩ :: q.drop (i + 1)) := by
    rw [List.get_eq_getElem, List.getElem_cons_drop, List.take_append_drop]
  have ht : expected_trace q =
      expected_trace (q.take i) ++
        (SinkCall.Trigger (q.get ⟨i, hi⟩).opcode :: SinkCall.Launch (q.get ⟨i, hi⟩).opcode ::
          expected_trace (q.drop (i + 1))) := by
    conv_lhs => rw [hq]
    rw [expected_trace_append]
    have hp' : q[i].is_high_power = true := hp
    simp [expected_trace, expected_calls, hp']
  simp only []
  rw [ht]
  refine ⟨?_, ?_, ?_⟩
  · rw [List.getElem?_append_right (Nat.le_refl _)]
    simp
  · rw [List.getElem?_append_right (Nat.le_succ _)]
    simp
  · rw [List.take_append]
    simp only [List.take_succ_cons, List.take_zero, launches_append, launches_expected_trace,
      List.length_append, List.length_map, List.length_take]
    simp [launches, launch_opcode]
    omega

/-- C2 at the queue `[low 7, high 9]` and position 1. -/
theorem C2_trigger_strictly_before_own_launch_witness :
    ∃ s, process_ring_buffer
        [{ opcode := 7, is_high_power := false, timestamp := 0 },
         { opcode := 9, is_high_power := true, timestamp := 5 }] = some s ∧
      ∃ j k, j < k ∧
        s.calls[j]? = some (SinkCall.Trigger 9) ∧
        s.calls[k]? = some (SinkCall.Launch 9) ∧
        (launches (s.calls.take k)).length = 1 :=
  C2_trigger_strictly_before_own_launch
    [{ opcode := 7, is_high_power := false, timestamp := 0 },
     { opcode := 9, is_high_power := true, timestamp := 5 }] 1 (by decide) rfl

/-- C3: for every queue, the `Launch` calls of the trace, in order, carry exactly the opcodes of
the queue's commands in queue order: one `Launch` per command, so there are as many launches as
commands and the `i`-th launch carries the opcode of the `i`-th command. -/
theorem C3_launches_are_queue_opcodes_in_order (q : List Command) :
    ∃ s, process_ring_buffer q = some s ∧
      launches s.calls = q.map (fun c => c.opcode) ∧
      (launches s.calls).length = q.length ∧
      ∀ (i : Nat) (hi : i < q.length),
        (launches s.calls)[i]? = some (q.get ⟨i, hi⟩).opcode := by
  refine ⟨_, process_eq q, launches_expected_trace q, ?_, ?_⟩
  · simp [launches_expected_trace]
  · intro i hi
    simp [launches_expected_trace, List.getElem?_eq_getElem hi]

/-- C4 as stated fails when a high-power command carries the same opcode as a low-power one:
on `[{1, false, 0}, {1, true, 0}]` the calls are `Launch 1, Trigger 1, Launch 1`, so the
low-power head command has opcode 1 and yet the trace has a `Trigger 1`. -/
theorem C4_counterexample_shared_opcode :
    process_ring_buffer
        [{ opcode := 1, is_high_power := false, timestamp := 0 },
         { opcode := 1, is_high_power := true, timestamp := 0 }] =
      some { buffer := [],
             calls := [SinkCall.Launch 1, SinkCall.Trigger 1, SinkCall.Launch 1] } ∧
    ({ opcode := 1, is_high_power := false, timestamp := 0 } : Command) ∈
      [({ opcode := 1, is_high_power := false, timestamp := 0 } : Command),
       { opcode := 1, is_high_power := true, timestamp := 0 }] ∧
    ({ opcode := 1, is_high_power := false, timestamp := 0 } : Command).is_high_power = false ∧
    SinkCall.Trigger ({ opcode := 1, is_high_power := false, timestamp := 0 } : Command).opcode ∈
      [SinkCall.Launch 1, SinkCall.Trigger 1, SinkCall.Launch 1] := by
  refine ⟨?_, by decide, rfl, by decide⟩
  simp [process_ring_buffer, drain_cons, drain_nil, launch_cuda_kernel,
    trigger_hardware_sideband]

/-- C4, amended: for every queue and every command `c` in it with `is_high_power = false`, if no
high-power command of the queue carries the opcode of `c`, then the trace contains no `Trigger`
call whose opcode is `c.opcode`. -/
theorem C4_no_trigger_for_low_power_opcode (q : List Command) (c : Command) (hc : c ∈ q)
    (hl : c.is_high_power = false)
    (hu : ∀ d ∈ q, d.is_high_power = true → d.opcode ≠ c.opcode) :
    ∃ s, process_ring_buffer q = some s ∧ SinkCall.Trigger c.opcode ∉ s.calls := by
  have _ := hc
  have _ := hl
  refine ⟨_, process_eq q, ?_⟩
  intro hmem
  obtain ⟨d, hd, hdp, hdo⟩ := (mem_expected_trace_trigger q c.opcode).mp hmem
  exact hu d hd hdp hdo

/-- C4 (amended) at the queue `[low 1, high 2]` and its low-power head. -/
theorem C4_no_trigger_for_low_power_opcode_witness :
    ∃ s, process_ring_buffer
        [{ opcode := 1, is_high_power := false, timestamp := 0 },
         { opcode := 2, is_high_power := true, timestamp := 0 }] = some s ∧
      SinkCall.Trigger 1 ∉ s.calls :=
  C4_no_trigger_for_low_power_opcode
    [{ opcode := 1, is_high_power := false, timestamp := 0 },
     { opcode := 2, is_high_power := true, timestamp := 0 }]
    { opcode := 1, is_high_power := false, timestamp := 0 } (by decide) rfl (by decide)

/-- C5: for every queue, the `Trigger` calls of the trace, in order, carry exactly the opcodes of
the high-power commands in queue order; so there are as many `Trigger` calls as high-power
commands, and none when the queue has no high-power command. -/
theorem C5_triggers_are_high_power_opcodes_in_order (q : List Command) :
    ∃ s, process_ring_buffer q = some s ∧
      triggers s.calls = (q.filter (fun c => c.is_high_power)).map (fun c => c.opcode) ∧
      (triggers s.calls).length = q.countP (fun c => c.is_high_power) ∧
      ((∀ c ∈ q, c.is_high_power = false) → (triggers s.calls).length = 0) := by
  refine ⟨_, process_eq q, triggers_expected_trace q, ?_, ?_⟩
  · simp [triggers_expected_trace, List.countP_eq_length_filter]
  · intro hnone
    simp only [triggers_expected_trace, List.length_map, List.length_eq_zero,
      List.filter_eq_nil_iff]
    intro c hc
    simp [hnone c hc]

/-- C6: for every queue, empty or not, the queue is empty when `process_ring_buffer` returns. -/
theorem C6_queue_empty_on_return (q : List Command) :
    ∃ s, process_ring_buffer q = some s ∧ s.buffer = [] :=
  ⟨_, process_eq q, rfl⟩

/-- C7: for every queue, every `Trigger op` of the trace is immediately followed by a
`Launch op` with the same opcode; hence the launch paired with a trigger never precedes it,
the trace never ends with a `Trigger`, and two `Trigger` calls are never adjacent. -/
theorem C7_trigger_immediately_followed_by_launch (q : List Command) :
    ∃ s, process_ring_buffer q = some s ∧
      (∀ (j op : Nat), s.calls[j]? = some (SinkCall.Trigger op) →
        s.calls[j + 1]? = some (SinkCall.Launch op)) ∧
      (∀ op : Nat, s.calls.getLast? ≠ some (SinkCall.Trigger op)) ∧
      (∀ (j op op' : Nat), ¬ (s.calls[j]? = some (SinkCall.Trigger op) ∧
        s.calls[j + 1]? = some (SinkCall.Trigger op'))) := by
  refine ⟨_, process_eq q, expected_trace_trigger_next q, ?_, ?_⟩
  · intro op hlast
    simp only [] at hlast
    rw [List.getLast?_eq_getElem?] at hlast
    have hpos : 0 < (expected_trace q).length := by
      rcases Nat.eq_zero_or_pos (expected_trace q).length with h0 | h0
      · rw [List.length_eq_zero.mp h0] at hlast
        simp at hlast
      · exact h0
    have hnext := expected_trace_trigger_next q _ op hlast
    have hnone : (expected_trace q)[(expected_trace q).length - 1 + 1]? = none := by
      apply List.getElem?_eq_none
      omega
    rw [hnone] at hnext
    exact Option.noConfusion hnext
  · rintro j op op' ⟨h1, h2⟩
    have hnext := expected_trace_trigger_next q j op h1
    simp only [] at h2
    rw [hnext] at h2
    simp at h2

/-- C8: on an empty queue `process_ring_buffer` makes no sink call, neither a `Trigger` nor a
`Launch`, and leaves the queue empty. -/
theorem C8_empty_queue_is_silent :
    process_ring_buffer [] = some { buffer := [], calls := [] } := by
  simp [process_ring_buffer, drain_nil]

/-- C9: on the queue that `main` seeds, `[{0xBEFF, true, 1000}]`, the calls are exactly
`Trigger 0xBEFF` then `Launch 0xBEFF` and the queue ends empty; and for every single high-power
command `{op, true, ts}` the trace is `[Trigger op, Launch op]`. -/
theorem C9_single_high_power_command :
    process_ring_buffer main_ring_buffer =
      some { buffer := [], calls := [SinkCall.Trigger 0xBEFF, SinkCall.Launch 0xBEFF] } ∧
    main_ring_buffer = [{ opcode := 0xBEFF, is_high_power := true, timestamp := 1000 }] ∧
    ∀ op ts : Nat,
      process_ring_buffer [{ opcode := op, is_high_power := true, timestamp := ts }] =
        some { buffer := [], calls := [SinkCall.Trigger op, SinkCall.Launch op] } := by
  refine ⟨?_, rfl, ?_⟩
  · simp [main_ring_buffer, process_ring_buffer, drain_cons, drain_nil, launch_cuda_kernel,
      trigger_hardware_sideband]
  · intro op ts
    simp [process_ring_buffer, drain_cons, drain_nil, launch_cuda_kernel,
      trigger_hardware_sideband]

/-- C10: on `[{1, false, 0}, {2, true, 0}]` the calls are exactly `Launch 1`, `Trigger 2`,
`Launch 2` in that order; and for every low-power command `a` followed by a high-power command
`b` the trace is `[Launch a.opcode, Trigger b.opcode, Launch b.opcode]`. -/
theorem C10_low_then_high_power :
    process_ring_buffer
        [{ opcode := 1, is_high_power := false, timestamp := 0 },
         { opcode := 2, is_high_power := true, timestamp := 0 }] =
      some { buffer := [],
             calls := [SinkCall.Launch 1, SinkCall.Trigger 2, SinkCall.Launch 2] } ∧
    ∀ a b : Command, a.is_high_power = false → b.is_high_power = true →
      process_ring_buffer [a, b] =
        some { buffer := [],
               calls := [SinkCall.Launch a.opcode, SinkCall.Trigger b.opcode,
                         SinkCall.Launch b.opcode] } := by
  refine ⟨?_, ?_⟩
  · simp [process_ring_buffer, drain_cons, drain_nil, launch_cuda_kernel,
      trigger_hardware_sideband]
  · intro a b ha hb
    simp [process_ring_buffer, drain_cons, drain_nil, launch_cuda_kernel,
      trigger_hardware_sideband, ha, hb]

/-! ## Alternating queues -/

theorem flags_alternate_tail (c : Command) (rest : List Command)
    (h : flags_alternate (c :: rest) = true) : flags_alternate rest = true := by
  cases rest with
  | nil => rfl
  | cons b rest =>
    simp only [flags_alternate, Bool.and_eq_true] at h
    exact h.2

theorem countP_high_power_of_alternate (n : Nat) (q : List Command)
    (hlen : q.length = 2 * n) (halt : flags_alternate q = true) :
    q.countP (fun c => c.is_high_power) = n := by
  induction n generalizing q with
  | zero =>
    have hq : q = [] := List.length_eq_zero.mp (by simpa using hlen)
    simp [hq]
  | succ n ih =>
    match q, hlen, halt with
    | [], hlen, _ => simp at hlen
    | [_], hlen, _ => simp at hlen; omega
    | a :: b :: rest, hlen, halt =>
      have hrest : rest.length = 2 * n := by
        simp only [List.length_cons] at hlen
        omega
      have halt2 : flags_alternate rest = true :=
        flags_alternate_tail b rest (flags_alternate_tail a (b :: rest) halt)
      have hne : (a.is_high_power != b.is_high_power) = true := by
        simp only [flags_alternate, Bool.and_eq_true] at halt
        exact halt.1
      have hcount := ih rest hrest halt2
      rw [List.countP_cons, List.countP_cons, hcount]
      cases ha : a.is_high_power <;> cases hb : b.is_high_power <;> simp [ha, hb] at hne ⊢

/-- C11: for every `n` and every queue of `2 * n` commands whose flags alternate (starting with
either value), `process_ring_buffer` makes exactly `2 * n` `Launch` calls, carrying the opcodes
in the original command order, and exactly `n` `Trigger` calls; with `n = 50` that is 100
launches and 50 triggers for a 100-command alternating queue. -/
theorem C11_alternating_queue_counts (n : Nat) (q : List Command)
    (hlen : q.length = 2 * n) (halt : flags_alternate q = true) :
    ∃ s, process_ring_buffer q = some s ∧
      launches s.calls = q.map (fun c => c.opcode) ∧
      (launches s.calls).length = 2 * n ∧
      (triggers s.calls).length = n := by
  refine ⟨_, process_eq q, launches_expected_trace q, ?_, ?_⟩
  · simp [launches_expected_trace, hlen]
  · simp only [triggers_expected_trace, List.length_map, ← List.countP_eq_length_filter]
    exact countP_high_power_of_alternate n q hlen halt

/-- C11 at the 100-command alternating queue: 100 launches in the original order, 50 triggers. -/
theorem C11_alternating_queue_counts_witness :
    ∃ s, process_ring_buffer alternating_queue_100 = some s ∧
      launches s.calls = alternating_queue_100.map (fun c => c.opcode) ∧
      (launches s.calls).length = 2 * 50 ∧
      (triggers s.calls).length = 50 :=
  C11_alternating_queue_counts 50 alternating_queue_100 (by decide) (by decide)

/-! ## The loop body, iterated -/

theorem loop_body_cons (cmd : Command) (rest : List Command) (calls : List SinkCall) :
    loop_body { buffer := cmd :: rest, calls := calls } =
      some { buffer := rest, calls := calls ++ expected_calls cmd } := by
  simp [loop_body, front, pop, sinks_eq_expected]

theorem loop_body_of_not_empty (s : State) (h : empty s.buffer = false) :
    ∃ cmd rest, s.buffer = cmd :: rest ∧
      loop_body s = some { buffer := rest, calls := s.calls ++ expected_calls cmd } := by
  obtain ⟨buffer, calls⟩ := s
  cases buffer with
  | nil => simp [empty] at h
  | cons cmd rest => exact ⟨cmd, rest, rfl, loop_body_cons cmd rest calls⟩

theorem iterate_body_eq (k : Nat) (q : List Command) (calls : List SinkCall)
    (hk : k ≤ q.length) :
    iterate_body k { buffer := q, calls := calls } =
      some { buffer := q.drop k, calls := calls ++ expected_trace (q.take k) } := by
  induction k generalizing q calls with
  | zero => simp [iterate_body, expected_trace]
  | succ k ih =>
    cases q with
    | nil => simp at hk
    | cons cmd rest =>
      have hk2 : k ≤ rest.length := by simpa using hk
      simp only [iterate_body, loop_body_cons, ih rest _ hk2, List.drop_succ_cons,
        List.take_succ_cons, expected_trace, List.append_assoc]

/-- C12: for every queue the drain terminates with a result, and the loop body runs exactly
`length q` times: the result is that of `length q` passes through the body, the loop test then
reads "empty", after any smaller number `k` of passes the queue still holds `length q - k`
commands and the test reads "not empty", and every pass the test lets through shortens the
queue by exactly one. -/
theorem C12_drain_terminates_after_length_iterations (q : List Command) :
    (∃ s, process_ring_buffer q = some s ∧
      iterate_body q.length { buffer := q, calls := [] } = some s ∧
      empty s.buffer = true) ∧
    (∀ k, k < q.length →
      ∃ sk, iterate_body k { buffer := q, calls := [] } = some sk ∧
        empty sk.buffer = false ∧ sk.buffer.length = q.length - k) ∧
    (∀ s : State, empty s.buffer = false →
      ∃ s', loop_body s = some s' ∧ s'.buffer.length + 1 = s.buffer.length) := by
  refine ⟨⟨_, process_eq q, ?_, rfl⟩, ?_, ?_⟩
  · rw [iterate_body_eq q.length q [] (Nat.le_refl _)]
    simp
  · intro k hk
    refine ⟨_, iterate_body_eq k q [] (Nat.le_of_lt hk), ?_, ?_⟩
    · rw [List.drop_eq_getElem_cons hk]
      rfl
    · simp
  · intro s hs
    obtain ⟨cmd, rest, hbuf, hbody⟩ := loop_body_of_not_empty s hs
    exact ⟨_, hbody, by simp [hbuf]⟩

/-- C13: `process_ring_buffer` never fails: for every queue, whatever the opcodes, flags and
timestamps, the drain returns a state and not the "touched an empty queue" outcome, from any
starting log of calls; and whenever the loop test reads "not empty", `front`, `pop` and the
whole body have a value, so their empty-queue branch is never taken inside the loop. -/
theorem C13_drain_never_fails (q : List Command) :
    (process_ring_buffer q).isSome = true ∧
    (∀ calls : List SinkCall, (drain { buffer := q, calls := calls }).isSome = true) ∧
    (∀ s : State, empty s.buffer = false →
      (front s.buffer).isSome = true ∧ (pop s.buffer).isSome = true ∧
        (loop_body s).isSome = true) := by
  refine ⟨?_, ?_, ?_⟩
  · rw [process_eq]
    rfl
  · intro calls
    rw [drain_eq]
    rfl
  · intro s hs
    obtain ⟨cmd, rest, hbuf, hbody⟩ := loop_body_of_not_empty s hs
    rw [hbody, hbuf]
    exact ⟨rfl, rfl, rfl⟩

/-- C14: for all queues `q1` and `q2`, the trace of `process_ring_buffer` on `q1 ++ q2` is the
trace on `q1` followed by the trace on `q2`; and draining `q2` with the calls of the drain of
`q1` already in the log ends in the same state as one drain of the joined queue. -/
theorem C14_trace_of_concatenation (q1 q2 : List Command) :
    ∃ s1 s2 s, process_ring_buffer q1 = some s1 ∧ process_ring_buffer q2 = some s2 ∧
      process_ring_buffer (q1 ++ q2) = some s ∧
      s.calls = s1.calls ++ s2.calls ∧
      drain { buffer := q2, calls := s1.calls } = some s := by
  refine ⟨_, _, _, process_eq q1, process_eq q2, process_eq (q1 ++ q2), ?_, ?_⟩
  · exact expected_trace_append q1 q2
  · rw [drain_eq, expected_trace_append]

/-! ## Timestamps and the loop invariant -/

theorem expected_trace_congr (q1 q2 : List Command)
    (h : q1.map (fun c => (c.opcode, c.is_high_power)) =
      q2.map (fun c => (c.opcode, c.is_high_power))) :
    expected_trace q1 = expected_trace q2 := by
  induction q1 generalizing q2 with
  | nil =>
    have hq2 : q2 = [] := by simpa using h.symm
    rw [hq2]
  | cons a rest ih =>
    cases q2 with
    | nil => simp at h
    | cons b rest2 =>
      simp only [List.map_cons, List.cons.injEq, Prod.mk.injEq] at h
      obtain ⟨⟨hop, hfl⟩, hrest⟩ := h
      simp only [expected_trace, expected_calls, hop, hfl, ih rest2 hrest]

/-- C15: the timestamp has no influence on dispatch: two queues of equal length whose commands
agree position by position on `opcode` and `is_high_power`, with arbitrary timestamps, give the
same call trace and the same, empty, final queue. -/
theorem C15_timestamp_has_no_influence (q1 q2 : List Command)
    (hlen : q1.length = q2.length)
    (hagree : ∀ (i : Nat) (h1 : i < q1.length) (h2 : i < q2.length),
      (q1.get ⟨i, h1⟩).opcode = (q2.get ⟨i, h2⟩).opcode ∧
      (q1.get ⟨i, h1⟩).is_high_power = (q2.get ⟨i, h2⟩).is_high_power) :
    ∃ s1 s2, process_ring_buffer q1 = some s1 ∧ process_ring_buffer q2 = some s2 ∧
      s1.calls = s2.calls ∧ s1.buffer = [] ∧ s2.buffer = [] := by
  refine ⟨_, _, process_eq q1, process_eq q2, ?_, rfl, rfl⟩
  apply expected_trace_congr
  apply List.ext_getElem
  · simp [hlen]
  · intro i h1 h2
    have h1q : i < q1.length := by simpa using h1
    have h2q : i < q2.length := by simpa using h2
    have hi := hagree i h1q h2q
    simp only [List.get_eq_getElem] at hi
    simp [hi.1, hi.2]

/-- C15 at two one-command queues that differ only in the timestamp. -/
theorem C15_timestamp_has_no_influence_witness :
    ∃ s1 s2,
      process_ring_buffer [{ opcode := 3, is_high_power := true, timestamp := 10 }] = some s1 ∧
      process_ring_buffer [{ opcode := 3, is_high_power := true, timestamp := 99 }] = some s2 ∧
      s1.calls = s2.calls ∧ s1.buffer = [] ∧ s2.buffer = [] :=
  C15_timestamp_has_no_influence
    [{ opcode := 3, is_high_power := true, timestamp := 10 }]
    [{ opcode := 3, is_high_power := true, timestamp := 99 }] rfl
    (by
      intro i h1 h2
      have hi : i = 0 := by simpa using h1
      subst hi
      exact ⟨rfl, rfl⟩)

/-- C16: loop invariant of the drain: in every state reachable from `(q, [])` by iterations of
the loop, for some number `k` of commands already removed, the remaining queue is `q` without
its first `k` commands, hence a suffix of `q`, and the calls made so far are exactly the expected
calls (trigger then launch for a high-power command, launch alone otherwise) of those first `k`
commands, in order: nothing duplicated, reordered or dropped. -/
theorem C16_loop_invariant (q : List Command) (s : State) (h : Reachable q s) :
    ∃ k, k ≤ q.length ∧ s.buffer = q.drop k ∧ s.buffer <:+ q ∧
      s.calls = (q.take k).flatMap (fun c =>
        if c.is_high_power then [SinkCall.Trigger c.opcode, SinkCall.Launch c.opcode]
        else [SinkCall.Launch c.opcode]) := by
  suffices hinv : ∃ k, k ≤ q.length ∧ s.buffer = q.drop k ∧
      s.calls = expected_trace (q.take k) by
    obtain ⟨k, hk, hbuf, hcalls⟩ := hinv
    refine ⟨k, hk, hbuf, ?_, ?_⟩
    · rw [hbuf]
      exact List.drop_suffix k q
    · rw [hcalls]
      exact expected_trace_eq_flatMap (q.take k)
  induction h with
  | init => exact ⟨0, Nat.zero_le _, rfl, rfl⟩
  | step s s' _ hstep ih =>
    obtain ⟨k, hk, hbuf, hcalls⟩ := ih
    obtain ⟨hne, hbody⟩ := hstep
    obtain ⟨cmd, rest, hcons, hbody2⟩ := loop_body_of_not_empty s hne
    rw [hbody2] at hbody
    have hlt : k < q.length := by
      rcases Nat.lt_or_ge k q.length with hlt | hge
      · exact hlt
      · rw [List.drop_eq_nil_iff.mpr hge] at hbuf
        rw [hbuf] at hcons
        exact List.noConfusion hcons
    have hdrop : q.drop k = q[k] :: q.drop (k + 1) := List.drop_eq_getElem_cons hlt
    rw [hbuf, hdrop] at hcons
    obtain ⟨hcmd, hrest⟩ := List.cons.inj hcons
    have hs' : s' = { buffer := rest, calls := s.calls ++ expected_calls cmd } :=
      (Option.some.inj hbody).symm
    refine ⟨k + 1, hlt, ?_, ?_⟩
    · rw [hs', ← hrest]
    · rw [hs', hcalls, ← hcmd, List.take_succ, List.getElem?_eq_getElem hlt,
        expected_trace_append]
      simp [expected_trace]

/-- C16 at the queue `[low 1, high 2]` and the state after one iteration. -/
theorem C16_loop_invariant_witness :
    ∃ k, k ≤ 2 ∧
      [({ opcode := 2, is_high_power := true, timestamp := 0 } : Command)] =
        List.drop k [{ opcode := 1, is_high_power := false, timestamp := 0 },
          { opcode := 2, is_high_power := true, timestamp := 0 }] ∧
      [({ opcode := 2, is_high_power := true, timestamp := 0 } : Command)] <:+
        [{ opcode := 1, is_high_power := false, timestamp := 0 },
          { opcode := 2, is_high_power := true, timestamp := 0 }] ∧
      [SinkCall.Launch 1] =
        (List.take k [({ opcode := 1, is_high_power := false, timestamp := 0 } : Command),
          { opcode := 2, is_high_power := true, timestamp := 0 }]).flatMap (fun c =>
            if c.is_high_power then [SinkCall.Trigger c.opcode, SinkCall.Launch c.opcode]
            else [SinkCall.Launch c.opcode]) :=
  C16_loop_invariant
    [{ opcode := 1, is_high_power := false, timestamp := 0 },
     { opcode := 2, is_high_power := true, timestamp := 0 }]
    { buffer := [{ opcode := 2, is_high_power := true, timestamp := 0 }],
      calls := [SinkCall.Launch 1] }
    (Reachable.step _ _ Reachable.init ⟨rfl, rfl⟩)

end GPU_CommandProcessor
